import Mathlib

/-!
# Verification of the pgrep core against its specification

Shallow embedding of the pgrep repository's core components:

* `src/lib/query.rs`  — the wildcard query matcher (`Query`, `Part`,
  `Query::match_part`, `Query::matches`, `FromStr for Query`);
* `src/lib/project.rs` — the folder scanner (`FolderScan::scan_folder`,
  `FolderScan::new`) and the project classifier (`detect_projects`,
  `find_project_root`, `ProjectKind`);
* `src/lib/cache.rs`  — the TTL-bounded cache store (`Cache::load`,
  `Cache::store`, `Cache::load_store`, `Cache::path`).

Modelling conventions:

* Rust strings are modelled as `List Char`.  Rust's `str::len` counts UTF-8
  *bytes* while `str::chars().nth` counts *characters*; the matcher mixes the
  two, so the length the Rust code computes is kept as an explicit `blen`
  argument.  For ASCII strings `blen` equals the character count.
* A `.unwrap()` / out-of-bounds character access (a Rust panic) is modelled by
  returning `none`; all embedded functions are `Option`-valued where the Rust
  code can panic.
* The Rust part iterator `std::slice::Iter<Part>` is threaded explicitly: each
  call returns the list of parts still unconsumed, together with a proof that
  the iterator only shrinks (needed for termination).
-/

namespace PGrep

/-- `Part` from `query.rs`: one token of a parsed query expression.
`Fixed` holds the literal's characters (the Rust `String`). -/
inductive Part where
  | optionalChar : Part
  | requiredChar : Part
  | anyStr : Part
  | integer : Part
  | fixed (s : List Char) : Part
deriving DecidableEq, Repr

/-- `PartMatch` from `query.rs`: result of matching one part. -/
inductive PartMatch where
  | success (n : Nat) : PartMatch
  | failure : PartMatch
deriving DecidableEq, Repr

/-- `PartMatch::is_success`. -/
def PartMatch.isSuccess : PartMatch → Bool
  | .success _ => true
  | .failure => false

/-- The digit scan loop of the `Part::Integer` arm of `Query::match_part`:
advance `chId` while it is below `blen` and the character there is a digit.
Returns `none` when the Rust code's `.unwrap()` would panic (character index
out of range although `chId < blen`). -/
def intScan (cs : List Char) (blen chId : Nat) : Option Nat :=
  if _h : chId < blen then
    match cs.get? chId with
    | none => none
    | some c => if c.isDigit then intScan cs blen (chId + 1) else some chId
  else
    some chId
termination_by blen - chId

/-- The comparison loop of the `Part::Fixed` arm of `Query::match_part`:
compare the literal `s` to the candidate `cs` character by character,
ASCII-case-insensitively, starting at `sId` / `chId`.  Mirrors the Rust loop
condition `ch_id < expr.len() && s_id < s.len()` and the trailing
`if s_id < s.len() { Failure }`. -/
def fixedScan (s cs : List Char) (blen sId chId : Nat) : Option PartMatch :=
  if _h : chId < blen ∧ sId < s.length then
    match s.get? sId, cs.get? chId with
    | some sc, some ec =>
      if sc.toLower = ec.toLower then fixedScan s cs blen (sId + 1) (chId + 1)
      else some .failure
    | _, _ => none
  else if sId < s.length then some .failure
  else some (.success chId)
termination_by s.length - sId

mutual

/-- `Query::match_part` from `query.rs`.  `it` is the state of the shared
`std::slice::Iter<Part>` *after* `p` has been taken from it; the returned list
is the iterator state when the call returns.  `blen` models `expr.len()`
(UTF-8 byte count); character access is by character index, so the function
returns `none` exactly when the Rust code would panic on `.unwrap()`. -/
def matchPart (p : Part) (it : List Part) (cs : List Char) (blen chId : Nat) :
    Option (PartMatch × { l : List Part // l.length ≤ it.length }) :=
  match p with
  | .optionalChar => some (.success (chId + 1), ⟨it, Nat.le_refl _⟩)
  | .requiredChar =>
    if chId ≥ blen then some (.failure, ⟨it, Nat.le_refl _⟩)
    else some (.success (chId + 1), ⟨it, Nat.le_refl _⟩)
  | .anyStr =>
    match it with
    | [] => some (.success blen, ⟨[], Nat.le_refl _⟩)
    | next :: rest =>
      match anyStrLoop next rest cs blen chId with
      | none => none
      | some (m, ⟨l, hl⟩) =>
        some (m, ⟨l, Nat.le_trans hl (Nat.le_succ _)⟩)
  | .integer =>
    match intScan cs blen chId with
    | none => none
    | some endId =>
      if endId = chId then some (.failure, ⟨it, Nat.le_refl _⟩)
      else some (.success endId, ⟨it, Nat.le_refl _⟩)
  | .fixed s =>
    match fixedScan s cs blen 0 chId with
    | none => none
    | some m => some (m, ⟨it, Nat.le_refl _⟩)
termination_by (it.length + 2) * (blen + 1)
decreasing_by
  simp_wf
  have : (rest.length + 1 + 2) * (blen + 1) =
      (rest.length + 2) * (blen + 1) + (blen + 1) := by ring
  omega

/-- The offset-scanning loop of the `Part::AnyStr` arm of `Query::match_part`:
try the following token `next` at increasing offsets `chId`, threading the
(shared, mutated) part iterator `it` through failed attempts exactly as the
Rust code does. -/
def anyStrLoop (next : Part) (it : List Part) (cs : List Char) (blen chId : Nat) :
    Option (PartMatch × { l : List Part // l.length ≤ it.length }) :=
  if _h : chId < blen then
    match matchPart next it cs blen chId with
    | none => none
    | some (.success n, l) => some (.success n, l)
    | some (.failure, ⟨l, hl⟩) =>
      match anyStrLoop next l cs blen (chId + 1) with
      | none => none
      | some (m, ⟨l', hl'⟩) => some (m, ⟨l', Nat.le_trans hl' hl⟩)
  else
    some (.failure, ⟨it, Nat.le_refl _⟩)
termination_by (it.length + 2) * (blen + 1) + (blen - chId)
decreasing_by
  · simp_wf
    omega
  · simp_wf
    have hmul : (l.length + 2) * (blen + 1) ≤ (it.length + 2) * (blen + 1) :=
      Nat.mul_le_mul_right _ (by omega)
    omega

end

/-- The `while let Some(part) = part_it.next()` loop of `Query::matches`.
Returns the final cursor, the last `PartMatch`, and the iterator state when
the loop exits (by exhaustion or by `break` on failure). -/
def matchesLoop (it : List Part) (cs : List Char) (blen chId : Nat)
    (lastM : PartMatch) : Option (Nat × PartMatch × List Part) :=
  match it with
  | [] => some (chId, lastM, [])
  | p :: rest =>
    match matchPart p rest cs blen chId with
    | none => none
    | some (.success n, ⟨l, _⟩) => matchesLoop l cs blen n (.success n)
    | some (.failure, ⟨l, _⟩) => some (chId, .failure, l)
termination_by it.length
decreasing_by
  simp_wf
  omega

/-- `Query` from `query.rs`: the original expression and its parsed parts. -/
structure Query where
  expr : List Char
  parts : List Part
deriving DecidableEq, Repr

/-- `Query::matches` from `query.rs`: run all parts in order from cursor 0;
succeed iff the iterator is exhausted, the cursor reached at least
`expr.len()`, and the last part matched. `none` models a panic. -/
def Query.matches (q : Query) (cs : List Char) (blen : Nat) : Option Bool :=
  match matchesLoop q.parts cs blen 0 .failure with
  | none => none
  | some (chId, lastM, rem) =>
    some (rem.isEmpty && decide (blen ≤ chId) && lastM.isSuccess)

/-- One step of the `for ch in expr.chars()` loop of
`impl FromStr for Query`: wildcards push their token, any other character
extends a trailing `Fixed` run or starts a new one. -/
def parseStep (parts : List Part) (ch : Char) : List Part :=
  if ch = '?' then parts ++ [.optionalChar]
  else if ch = '_' then parts ++ [.requiredChar]
  else if ch = '*' then parts ++ [.anyStr]
  else if ch = '#' then parts ++ [.integer]
  else
    match parts.getLast? with
    | some (.fixed s) => parts.dropLast ++ [.fixed (s ++ [ch])]
    | _ => parts ++ [.fixed [ch]]

/-- `str::trim` on a character list (drop whitespace from both ends). -/
def trimChars (s : List Char) : List Char :=
  ((s.dropWhile Char.isWhitespace).reverse.dropWhile Char.isWhitespace).reverse

/-- `impl FromStr for Query` from `query.rs`: trim, reject the empty
expression, tokenize character by character. -/
def Query.parse (s : List Char) : Except String Query :=
  let expr := trimChars s
  if expr.isEmpty then .error "cannot parse empty query"
  else .ok { expr := expr, parts := expr.foldl parseStep [] }

/-- Case-insensitive (ASCII) equality of character lists, modelling
`eq_ignore_ascii_case`.  `Char.toLower` lowers exactly the ASCII uppercase
range, like Rust's `to_ascii_lowercase`. -/
def ciEq (a b : List Char) : Bool :=
  a.map Char.toLower == b.map Char.toLower

/-- `ciLeads s l`: `l` starts with `s` up to ASCII case. -/
def ciLeads (s l : List Char) : Bool :=
  decide (s.length ≤ l.length) && ciEq s (l.take s.length)

/-- End of the maximal digit run of `cs` starting at `i`. -/
def digitEnd (cs : List Char) (i : Nat) : Nat :=
  i + ((cs.drop i).takeWhile Char.isDigit).length

/-- Modelled from the spec (§4.4 of the specification), *not* from the code:
`specSeq parts cs i` holds when the token sequence `parts` matches the rest
of the candidate `cs` starting at cursor `i` and consumes it exactly to the
end.  In particular, for `AnyStr` with a following token it scans the
end-offsets from the cursor on and requires the *entire remaining token
sequence* to match from one of them.  This is the right-hand side of claim
C1's "exactly when", used to compare the spec's intended semantics with
`Query::match_part`. -/
def specSeq : List Part → List Char → Nat → Bool
  | [], cs, i => i == cs.length
  | .optionalChar :: rest, cs, i =>
    if i < cs.length then specSeq rest cs (i + 1) else specSeq rest cs i
  | .requiredChar :: rest, cs, i =>
    decide (i < cs.length) && specSeq rest cs (i + 1)
  | .integer :: rest, cs, i =>
    decide (i < digitEnd cs i) && specSeq rest cs (digitEnd cs i)
  | .fixed s :: rest, cs, i =>
    ciLeads s (cs.drop i) && specSeq rest cs (i + s.length)
  | .anyStr :: rest, cs, i =>
    match rest with
    | [] => true
    | _ :: _ =>
      (List.range (cs.length + 1)).any fun j => decide (i ≤ j) && specSeq rest cs j

/-! ## Folder scanner and project classifier (`project.rs`)

Filesystem paths are modelled as lists of components (`RPath`); `Path::display`
joins components with `'/'`.  The filesystem itself is a tree of `FsNode`s;
a directory on which `read_dir` (or iterating its entries) fails is a
`badDir`. -/

/-- A filesystem path as its list of components. -/
abbrev RPath := List String

/-- The characters of `format!("{}", path.display())`: components joined
with the separator `'/'`. -/
def display : RPath → List Char
  | [] => []
  | [c] => c.toList
  | c :: rest => c.toList ++ '/' :: display rest

/-- `eq_ignore_ascii_case` on two strings (file names, marker names). -/
def strEqCI (a b : String) : Bool := ciEq a.toList b.toList

/-- A node of the filesystem tree.  `badDir` is a directory whose listing
fails with an I/O error; a symlink or any other non-directory entry is a
`file` leaf. -/
inductive FsNode where
  | file (name : String) : FsNode
  | dir (name : String) (entries : List FsNode) : FsNode
  | badDir (name : String) : FsNode

/-- `FolderScan::DIR_EXCLUSIONS` from `project.rs`. -/
def DIR_EXCLUSIONS : List String := [".git", "node_modules", "target", "vendor"]

/-- The pruning test of `FolderScan::scan_folder`: the directory name is in
the exclusion list or starts with a dot (`fname.starts_with(".")`, i.e. its
first character is `'.'`). -/
def excludedDir (name : String) : Bool :=
  DIR_EXCLUSIONS.contains name ||
    match name.toList with
    | [] => false
    | c :: _ => c = '.'

/-- `FolderScan::scan_folder` from `project.rs`, relative to the absolute
path `pre` of the directory being listed: files are recorded by absolute
path, non-excluded subdirectories are recursed into (their results appended
in place), excluded ones are skipped entirely, and a failing directory
listing aborts the whole call with `Except.error` (the `?` operator). -/
def scanEntries (pre : RPath) : List FsNode → Except Unit (List RPath)
  | [] => .ok []
  | .file n :: rest =>
    match scanEntries pre rest with
    | .error e => .error e
    | .ok r => .ok ((pre ++ [n]) :: r)
  | .dir n sub :: rest =>
    if excludedDir n then scanEntries pre rest
    else
      match scanEntries (pre ++ [n]) sub with
      | .error e => .error e
      | .ok s =>
        match scanEntries pre rest with
        | .error e => .error e
        | .ok r => .ok (s ++ r)
  | .badDir n :: rest =>
    if excludedDir n then scanEntries pre rest else .error ()
termination_by entries => sizeOf entries

/-- `FolderScan` from `project.rs` (the scan timestamp is irrelevant to the
claims and omitted). -/
structure FolderScan where
  path : RPath
  files : List RPath
deriving DecidableEq, Repr

/-- `FolderScan::new` from `project.rs`: `read_dir` on the root itself, then
the recursive walk; any error aborts the construction. -/
def folderScanNew (rootName : String) (root : FsNode) : Except Unit FolderScan :=
  match root with
  | .dir _ sub =>
    match scanEntries [rootName] sub with
    | .error e => .error e
    | .ok fs => .ok ⟨[rootName], fs⟩
  | _ => .error ()

/-- `ProjectKind` from `project.rs`. -/
inductive ProjectKind where
  | rust : ProjectKind
  | go : ProjectKind
  | c : ProjectKind
  | node : ProjectKind
  | maven : ProjectKind
  | other : ProjectKind
  | custom (name : String) (languageExts : List String) (projectFiles : List String) :
      ProjectKind
deriving DecidableEq, Repr

/-- `ProjectKind::project_files` from `project.rs`: the marker filenames. -/
def ProjectKind.projectFiles : ProjectKind → List String
  | .rust => ["Cargo.toml", "Cargo.lock"]
  | .go => ["go.mod"]
  | .c => ["Makefile", "CMakeLists.txt"]
  | .node => ["package.json", "package.lock"]
  | .maven => ["pom.xml"]
  | .other => ["README.md", "LICENSE.md", "CONTRIBUTING.md"]
  | .custom _ _ pf => pf

/-- `ProjectKind::iter()` (strum's `EnumIter`): the variants in declaration
order, the `Custom` variant with `Default` field values. -/
def builtinKinds : List ProjectKind :=
  [.rust, .go, .c, .node, .maven, .other, .custom "" [] []]

/-- `Project` from `project.rs`. -/
structure Project where
  path : RPath
  kinds : List ProjectKind
  sourceFiles : List RPath
  projectFiles : List RPath
deriving DecidableEq, Repr

/-- `HashMap::get` on the association-list model of a `HashMap` (keys are
unique, so the first hit is the entry). -/
def alistGet? {κ β : Type} [DecidableEq κ] : List (κ × β) → κ → Option β
  | [], _ => none
  | e :: rest, k => if e.1 = k then some e.2 else alistGet? rest k

/-- `map.entry(k).or_insert_with(|| vec![]).push(v)` on the association-list
model: extend the entry in place, or append a new singleton entry. -/
def alistPush {κ β : Type} [DecidableEq κ] : List (κ × List β) → κ → β → List (κ × List β)
  | [], k, v => [(k, [v])]
  | e :: rest, k, v =>
    if e.1 = k then (e.1, e.2 ++ [v]) :: rest else e :: alistPush rest k v

/-- `map.entry(k).or_insert_with(|| vec![])` (no push) on the model. -/
def alistEnsure {κ β : Type} [DecidableEq κ] : List (κ × List β) → κ → List (κ × List β)
  | [], k => [(k, [])]
  | e :: rest, k => if e.1 = k then e :: rest else e :: alistEnsure rest k

/-- `find_project_root` from `project.rs`: the first already-discovered root
whose displayed path is a string prefix of the file's displayed path,
compared ASCII-case-insensitively.  (The Rust `HashMap` iteration order is
unspecified; the association list stands in for it, and the theorems below
only use states with at most one root, where every order agrees.) -/
def findProjectRoot {β : Type} (file : RPath) (roots : List (RPath × β)) : Option RPath :=
  let pathStr := display file
  (roots.find? fun e =>
      let rootStr := display e.1
      decide (pathStr.length ≥ rootStr.length) &&
        ciEq rootStr (pathStr.take rootStr.length)).map (·.1)

/-- The mutable state of the `for file in &scan.files` loop of
`detect_projects`: the drainable `custom_kinds` vector and the three
`HashMap`s. -/
structure DetectState where
  customKinds : List ProjectKind
  projectRoots : List (RPath × List ProjectKind)
  projectFiles : List (RPath × List RPath)
  projectSourceFiles : List (RPath × List RPath)
deriving DecidableEq, Repr

/-- One iteration of the `for file in &scan.files` loop of `detect_projects`.
If the file lies under an already-discovered root it is pushed into
`project_source_files` — keyed, as in the source, by the *file's own path*
(`project_source_files.entry(file.clone())`), not by the root.  Otherwise
every marker filename of every kind is tested against the file name
(case-insensitively); each match pushes the kind and the file under the
file's parent directory.  `kinds.append(&mut custom_kinds)` drains
`custom_kinds`, so custom kinds only take part the first time this branch
runs.  (`file.parent().unwrap()` is `dropLast`, total on component lists.) -/
def detectStep (st : DetectState) (file : RPath) : DetectState :=
  match findProjectRoot file st.projectRoots with
  | some _ =>
    { st with projectSourceFiles := alistPush st.projectSourceFiles file file }
  | none =>
    let kinds := builtinKinds ++ st.customKinds
    let st := { st with customKinds := [] }
    kinds.foldl
      (fun st kind =>
        kind.projectFiles.foldl
          (fun st projectFile =>
            match file.getLast? with
            | none => st
            | some fname =>
              if strEqCI fname projectFile then
                let projectDir := file.dropLast
                { st with
                  projectRoots := alistPush st.projectRoots projectDir kind
                  projectFiles := alistPush st.projectFiles projectDir file
                  projectSourceFiles := alistEnsure st.projectSourceFiles projectDir }
              else st)
          st)
      st

/-- `detect_projects` from `project.rs`: classify each scanned file in order,
then assemble one `Project` per discovered root.  The two
`remove(&path).unwrap()` calls are modelled by `alistGet? · |>.getD []`; the
entries exist for every root because the marker branch always creates
them. -/
def detectProjects (files : List RPath) (customKinds : List ProjectKind) : List Project :=
  let st := files.foldl detectStep ⟨customKinds, [], [], []⟩
  st.projectRoots.map fun e =>
    { path := e.1
      kinds := e.2
      sourceFiles := (alistGet? st.projectSourceFiles e.1).getD []
      projectFiles := (alistGet? st.projectFiles e.1).getD [] }

/-! ## Cache store (`cache.rs`)

The cache is modelled with explicit state: the `enabled` flag, the in-memory
index, and the cache directory's contents (`disk`, filename → serialized
bytes).  Timestamps (`DateTime<Local>`) are seconds as `Int`; `Local::now()`
becomes an explicit `now` argument.  Serialization (`rmp_serde`) is a
parameter `enc : α → Bytes` with partial inverse `dec : Bytes → Option α`;
`dec b = none` models a payload that fails to deserialize. Every operation
additionally returns the trace of file accesses it performed. -/

/-- A serialized payload. -/
abbrev Bytes := List Nat

/-- `Index` from `cache.rs` (`paths`, `write_times`, `written_at`). -/
structure CacheIndex where
  paths : List String
  writeTimes : List (String × Int)
  writtenAt : Option Int
deriving DecidableEq, Repr

/-- The state of `Cache` from `cache.rs`, together with the cache
directory's contents. -/
structure CacheState where
  enabled : Bool
  index : CacheIndex
  disk : List (String × Bytes)
deriving DecidableEq, Repr

/-- `Cache::CACHE_BUST_THRESHOLD`: `Duration::minutes(5)`, in seconds. -/
def CACHE_BUST_THRESHOLD : Int := 5 * 60

/-- `Cache::CACHE_EXT`. -/
def CACHE_EXT : List Char := ['.', 'b', 'i', 'n']

/-- One file access performed by a cache operation: an existence probe, a
read, or a write of the named file in the cache directory. -/
inductive FsOp where
  | probe (path : List Char) : FsOp
  | read (path : List Char) : FsOp
  | write (path : List Char) : FsOp
deriving DecidableEq, Repr

/-- `Cache::path` from `cache.rs`, without the base directory: replace
`'\'` by `'/'`, then every non-ASCII-alphanumeric character by `'_'`, and
append the `.bin` extension. -/
def cachePath (key : List Char) : List Char :=
  ((key.map fun c => if c = '\\' then '/' else c).map
    fun c => if c.isAlphanum then c else '_') ++ CACHE_EXT

/-- `HashMap::insert` on the association-list model: overwrite in place or
append. -/
def ainsert {κ β : Type} [DecidableEq κ] : List (κ × β) → κ → β → List (κ × β)
  | [], k, v => [(k, v)]
  | e :: rest, k, v => if e.1 = k then (k, v) :: rest else e :: ainsert rest k v

/-- `Cache::load` from `cache.rs`: disabled stores and keys that are absent
from the index or stale (`now >= write_time + TTL`) yield `Ok(None)` without
touching the payload file; a missing payload file also yields `Ok(None)`;
otherwise the payload is read and deserialized, a deserialization failure
being a hard error.  (`fs::read` of an existing modelled file succeeds.) -/
def cacheLoad {α : Type} (dec : Bytes → Option α) (st : CacheState) (now : Int)
    (key : List Char) : Except String (Option α) × List FsOp :=
  if !st.enabled then (.ok none, [])
  else
    match alistGet? st.index.writeTimes (String.mk key) with
    | none => (.ok none, [])
    | some wt =>
      if now ≥ wt + CACHE_BUST_THRESHOLD then (.ok none, [])
      else
        let p := cachePath key
        match alistGet? st.disk (String.mk p) with
        | none => (.ok none, [.probe p])
        | some content =>
          match dec content with
          | none => (.error "cannot deserialize from cache", [.probe p, .read p])
          | some v => (.ok (some v), [.probe p, .read p])

/-- `Cache::store` from `cache.rs`: compute the key's path; if the store is
disabled return it without touching disk; otherwise write the serialized
payload and update the index (`paths` appended if new, `write_times`
timestamp set to `now`).  Serialization and the file write succeed in the
model. -/
def cacheStore {α : Type} (enc : α → Bytes) (st : CacheState) (now : Int)
    (key : List Char) (v : α) : (List Char × CacheState) × List FsOp :=
  let p := cachePath key
  if !st.enabled then ((p, st), [])
  else
    let paths' :=
      if st.index.paths.contains (String.mk key) then st.index.paths
      else st.index.paths ++ [String.mk key]
    ((p,
      { st with
        disk := ainsert st.disk (String.mk p) (enc v)
        index :=
          { st.index with
            paths := paths'
            writeTimes := ainsert st.index.writeTimes (String.mk key) now } }),
      [.write p])

/-- `Cache::load_store` from `cache.rs` (the spec's `get_or_compute`): try
`load`; on `Ok(Some(v))` return it; on `Ok(None)` invoke `action` and, on
its success, `store` the result; a load error propagates before `action`
runs.  Returns (result, final state, whether `action` was invoked,
file-access trace). -/
def cacheLoadStore {α : Type} (enc : α → Bytes) (dec : Bytes → Option α)
    (st : CacheState) (now : Int) (key : List Char) (action : Except String α) :
    Except String α × CacheState × Bool × List FsOp :=
  match cacheLoad dec st now key with
  | (.ok (some v), ops) => (.ok v, st, false, ops)
  | (.ok none, ops) =>
    match action with
    | .error e => (.error e, st, true, ops)
    | .ok v =>
      match cacheStore enc st now key v with
      | ((_, st'), ops2) => (.ok v, st', true, ops ++ ops2)
  | (.error e, ops) => (.error e, st, false, ops)

/-! ## Specification-level predicates used by the theorems -/

/-- `ReachableFile entries p`: starting from a directory whose entries are
`entries`, the relative component path `p` leads through non-excluded
directories to a `file` leaf.  This is exactly the set of paths the spec
allows a scan to record. -/
inductive ReachableFile : List FsNode → RPath → Prop where
  | here {entries : List FsNode} {n : String} :
      FsNode.file n ∈ entries → ReachableFile entries [n]
  | there {entries : List FsNode} {n : String} {sub : List FsNode} {p : RPath} :
      FsNode.dir n sub ∈ entries → excludedDir n = false →
      ReachableFile sub p → ReachableFile entries (n :: p)

/-- `HasReadError entries`: somewhere below this directory, reachable
through non-excluded directories, there is a directory whose listing fails.
These are exactly the trees on which the walk encounters an I/O error. -/
inductive HasReadError : List FsNode → Prop where
  | bad {entries : List FsNode} {n : String} :
      FsNode.badDir n ∈ entries → excludedDir n = false → HasReadError entries
  | deeper {entries : List FsNode} {n : String} {sub : List FsNode} :
      FsNode.dir n sub ∈ entries → excludedDir n = false →
      HasReadError sub → HasReadError entries

/-- The UTF-8 byte count of a character list: what Rust's `str::len` returns
for the corresponding string.  For ASCII strings it equals the character
count. -/
def byteLen (cs : List Char) : Nat := (cs.map Char.utf8Size).sum

/-! ## Helper lemmas -/

theorem alistGet?_ainsert_self {κ β : Type} [DecidableEq κ]
    (m : List (κ × β)) (k : κ) (v : β) : alistGet? (ainsert m k v) k = some v := by
  induction m with
  | nil => simp [ainsert, alistGet?]
  | cons e rest ih => by_cases h : e.1 = k <;> simp [ainsert, alistGet?, h, ih]

theorem not_now_ge_now_add_ttl (now : Int) : ¬ now ≥ now + CACHE_BUST_THRESHOLD := by
  simp [CACHE_BUST_THRESHOLD]

theorem ciEq_self (a : List Char) : ciEq a a = true := by simp [ciEq]

theorem display_concat (d : RPath) (x : String) (hd : d ≠ []) :
    display (d ++ [x]) = display d ++ '/' :: x.toList := by
  induction d with
  | nil => exact absurd rfl hd
  | cons c rest ih =>
    cases rest with
    | nil => simp [display]
    | cons c2 rest2 =>
      have h2 := ih (by simp)
      calc display ((c :: c2 :: rest2) ++ [x])
          = c.toList ++ '/' :: display ((c2 :: rest2) ++ [x]) := rfl
        _ = c.toList ++ '/' :: (display (c2 :: rest2) ++ '/' :: x.toList) := by rw [h2]
        _ = display (c :: c2 :: rest2) ++ '/' :: x.toList := by
            simp [display]

theorem concat_ne_self (d : RPath) (x : String) : d ++ [x] ≠ d := by
  intro h
  have := congrArg List.length h
  simp at this

/-! ## Cache store theorems -/

/-- Claim C4: on an enabled store, once `now >= write_time + TTL` the entry
is treated as absent: `load` returns `Ok(None)` (not an error), and
`load_store` (the spec's `get_or_compute`) invokes the compute action,
overwrites the stored payload under the key, and updates the index
timestamp to `now`. -/
theorem stale_entry_recomputed {α : Type} (enc : α → Bytes) (dec : Bytes → Option α)
    (st : CacheState) (now wt : Int) (key : List Char) (v : α)
    (hen : st.enabled = true)
    (hwt : alistGet? st.index.writeTimes (String.mk key) = some wt)
    (hstale : now ≥ wt + CACHE_BUST_THRESHOLD) :
    (cacheLoad dec st now key).1 = .ok none
    ∧ (cacheLoadStore enc dec st now key (.ok v)).1 = .ok v
    ∧ (cacheLoadStore enc dec st now key (.ok v)).2.2.1 = true
    ∧ alistGet? (cacheLoadStore enc dec st now key (.ok v)).2.1.disk
        (String.mk (cachePath key)) = some (enc v)
    ∧ alistGet? (cacheLoadStore enc dec st now key (.ok v)).2.1.index.writeTimes
        (String.mk key) = some now := by
  have hload : cacheLoad dec st now key = (.ok none, []) := by
    simp [cacheLoad, hen, hwt, hstale]
  refine ⟨by simp [hload], ?_, ?_, ?_, ?_⟩ <;>
    simp [cacheLoadStore, hload, cacheStore, hen, alistGet?_ainsert_self]

/-- Witness for `stale_entry_recomputed` at a concrete stale store. -/
theorem stale_entry_recomputed_witness :
    ((⟨true, ⟨["k"], [("k", 0)], none⟩, []⟩ : CacheState).enabled = true
      ∧ alistGet? [("k", (0 : Int))] (String.mk ['k']) = some 0
      ∧ (300 : Int) ≥ 0 + CACHE_BUST_THRESHOLD)
    ∧ (cacheLoad (fun b => b.head?) ⟨true, ⟨["k"], [("k", 0)], none⟩, []⟩ 300 ['k']).1
        = .ok none :=
  ⟨⟨rfl, by decide, by decide⟩,
    (stale_entry_recomputed (fun n => [n]) (fun b => b.head?)
      ⟨true, ⟨["k"], [("k", 0)], none⟩, []⟩ 300 0 ['k'] 7 rfl (by decide) (by decide)).1⟩

/-- Claim C5: with the cache disabled, `load` returns `Ok(None)` and `store`
returns the key's path with the state unchanged, neither performing any
file access, and `get_or_compute` invokes the compute action (on every
call: the state is returned unchanged) and returns its result, with an
empty file-access trace. -/
theorem disabled_cache_computes_and_touches_no_files {α : Type}
    (enc : α → Bytes) (dec : Bytes → Option α) (st : CacheState) (now : Int)
    (key : List Char) (v : α) (action : Except String α)
    (hdis : st.enabled = false) :
    cacheLoad dec st now key = (.ok none, [])
    ∧ cacheStore enc st now key v = ((cachePath key, st), [])
    ∧ cacheLoadStore enc dec st now key action = (action, st, true, []) := by
  have hl : cacheLoad dec st now key = (.ok none, []) := by simp [cacheLoad, hdis]
  refine ⟨hl, by simp [cacheStore, hdis], ?_⟩
  cases action with
  | ok w => simp [cacheLoadStore, hl, cacheStore, hdis]
  | error e => simp [cacheLoadStore, hl]

/-- Witness for `disabled_cache_computes_and_touches_no_files` on a disabled
store. -/
theorem disabled_cache_computes_and_touches_no_files_witness :
    ((⟨false, ⟨[], [], none⟩, []⟩ : CacheState).enabled = false)
    ∧ cacheLoadStore (fun n => [n]) (fun b => b.head?)
        ⟨false, ⟨[], [], none⟩, []⟩ 0 ['k'] (.ok 7)
        = (.ok 7, ⟨false, ⟨[], [], none⟩, []⟩, true, []) :=
  ⟨rfl,
    (disabled_cache_computes_and_touches_no_files (fun n => [n]) (fun b => b.head?)
      ⟨false, ⟨[], [], none⟩, []⟩ 0 ['k'] 7 (.ok 7) rfl).2.2⟩

/-- Claim C6: on an enabled store, `store(key, v)` immediately followed by
`load(key)` returns `v` unchanged, provided the serialization round-trips
(`dec (enc v) = some v`, the property `rmp_serde` provides for serializable
values). -/
theorem store_then_load_roundtrip {α : Type} (enc : α → Bytes) (dec : Bytes → Option α)
    (st : CacheState) (now : Int) (key : List Char) (v : α)
    (hen : st.enabled = true) (hrt : dec (enc v) = some v) :
    (cacheLoad dec (cacheStore enc st now key v).1.2 now key).1 = .ok (some v) := by
  simp [cacheStore, hen, cacheLoad, alistGet?_ainsert_self, hrt,
    not_now_ge_now_add_ttl now]

/-- Witness for `store_then_load_roundtrip` on a concrete store. -/
theorem store_then_load_roundtrip_witness :
    ((⟨true, ⟨[], [], none⟩, []⟩ : CacheState).enabled = true
      ∧ (fun (b : Bytes) => b.head?) ((fun (n : Nat) => [n]) 7) = some 7)
    ∧ (cacheLoad (fun (b : Bytes) => b.head?)
        (cacheStore (fun (n : Nat) => [n]) ⟨true, ⟨[], [], none⟩, []⟩ 0 ['k'] 7).1.2
        0 ['k']).1 = .ok (some 7) :=
  ⟨⟨rfl, rfl⟩,
    store_then_load_roundtrip (fun n => [n]) (fun b => b.head?)
      ⟨true, ⟨[], [], none⟩, []⟩ 0 ['k'] 7 rfl rfl⟩

/-! ## Project classifier theorems -/

/-- Claim C3 (the code contradicts it): the spec says a file whose path lies
under an already-discovered project root is attached as a recognized file of
that root and appears in the returned `Project`'s recognized-file set.  In
`detect_projects` the attachment is keyed by the *file's own path*
(`project_source_files.entry(file.clone())`) while the final assembly removes
entries keyed by the *root*, so the file is dropped: at the failing input
below, `proj/main.rs` lies under the discovered root `proj`, yet the returned
project's source-file set is empty. -/
theorem attached_file_lost_from_source_files :
    detectProjects [["proj", "Cargo.toml"], ["proj", "main.rs"]] []
      = [{ path := ["proj"], kinds := [.rust], sourceFiles := [],
           projectFiles := [["proj", "Cargo.toml"]] }] := by
  decide

/-- Claim C2 counterexample: a directory holding marker files of two
different active kinds (`Cargo.toml` for Rust, `go.mod` for Go) yields one
project whose kind set is `[Rust]` only — the Go kind is *not* accumulated,
because the second marker file already lies under the root discovered from
the first marker and is diverted into the recognized-file branch. -/
theorem two_marker_files_one_kind_cex :
    detectProjects [["proj", "Cargo.toml"], ["proj", "go.mod"]] []
      = [{ path := ["proj"], kinds := [.rust], sourceFiles := [],
           projectFiles := [["proj", "Cargo.toml"]] }]
    ∧ ProjectKind.go ∉ [ProjectKind.rust] := by
  decide

/-- Claim C2 (amended): for a directory containing marker files of two
different kinds, `detect_projects` returns exactly one project rooted there,
whose kind set holds exactly the kinds matching the *first* marker file in
scan order (here Rust for `Cargo.toml`); the later marker file does not
contribute its kind.  A root accumulates several kinds only when a *single*
marker file matches several kinds' marker lists — second conjunct, where
`go.mod` is a marker of both `Go` and a custom kind. -/
theorem second_marker_file_does_not_add_kind (d : RPath) (hd : d ≠ []) :
    detectProjects [d ++ ["Cargo.toml"], d ++ ["go.mod"]] []
      = [{ path := d, kinds := [.rust], sourceFiles := [],
           projectFiles := [d ++ ["Cargo.toml"]] }]
    ∧ detectProjects [d ++ ["go.mod"]] [.custom "X" [] ["go.mod"]]
      = [{ path := d, kinds := [.go, .custom "X" [] ["go.mod"]], sourceFiles := [],
           projectFiles := [d ++ ["go.mod"], d ++ ["go.mod"]] }] := by
  have hfirst :
      detectStep ⟨[], [], [], []⟩ (d ++ ["Cargo.toml"])
        = ⟨[], [(d, [.rust])], [(d, [d ++ ["Cargo.toml"]])], [(d, [])]⟩ := by
    simp +decide [detectStep, findProjectRoot, builtinKinds, ProjectKind.projectFiles,
      List.getLast?_concat, List.dropLast_concat, alistPush, alistEnsure]
  have hroot : findProjectRoot (d ++ ["go.mod"]) [(d, [ProjectKind.rust])] = some d := by
    simp [findProjectRoot, display_concat d "go.mod" hd, List.take_left, ciEq_self]
  have hsecond :
      detectStep ⟨[], [(d, [.rust])], [(d, [d ++ ["Cargo.toml"]])], [(d, [])]⟩
          (d ++ ["go.mod"])
        = ⟨[], [(d, [.rust])], [(d, [d ++ ["Cargo.toml"]])],
            [(d, []), (d ++ ["go.mod"], [d ++ ["go.mod"]])]⟩ := by
    simp [detectStep, hroot, alistPush, concat_ne_self]
  refine ⟨?_, ?_⟩
  · simp [detectProjects, hfirst, hsecond, alistGet?]
  · simp +decide [detectProjects, detectStep, findProjectRoot, builtinKinds,
      ProjectKind.projectFiles, List.getLast?_concat, List.dropLast_concat,
      alistPush, alistEnsure, alistGet?]

/-- Witness for `second_marker_file_does_not_add_kind` at a concrete
directory. -/
theorem second_marker_file_does_not_add_kind_witness :
    ((["home", "proj"] : RPath) ≠ []
      ∧ detectProjects [["home", "proj", "Cargo.toml"], ["home", "proj", "go.mod"]] []
        = [{ path := ["home", "proj"], kinds := [.rust], sourceFiles := [],
             projectFiles := [["home", "proj", "Cargo.toml"]] }]) :=
  ⟨by decide, (second_marker_file_does_not_add_kind ["home", "proj"] (by decide)).1⟩

/-! ## Folder scanner theorems -/

theorem reachableFile_cons {l : List FsNode} {p : RPath} (e : FsNode)
    (h : ReachableFile l p) : ReachableFile (e :: l) p := by
  cases h with
  | here hm => exact .here (List.mem_cons_of_mem _ hm)
  | there hm hx hr => exact .there (List.mem_cons_of_mem _ hm) hx hr

/-- Claim C8: every path recorded by a successful scan is the scanned root
followed by a component path that descends only through non-excluded,
non-dot directories and ends at a non-directory leaf (`ReachableFile`): in
particular no path below an excluded or dot-named directory ever appears in
the file set, and no recorded entry is a directory. -/
theorem scan_records_only_reachable_files (pre : RPath) (entries : List FsNode)
    (files : List RPath) (hok : scanEntries pre entries = .ok files) :
    ∀ q ∈ files, ∃ p, q = pre ++ p ∧ ReachableFile entries p := by
  induction pre, entries using scanEntries.induct generalizing files with
  | case1 pre =>
    simp only [scanEntries] at hok
    cases hok
    simp
  | case2 pre n rest e herr _ =>
    simp only [scanEntries] at hok
    rw [herr] at hok
    simp at hok
  | case3 pre n rest r hr ih =>
    simp only [scanEntries] at hok
    rw [hr] at hok
    simp only [Except.ok.injEq] at hok
    subst hok
    intro q hq
    rcases List.mem_cons.mp hq with hq | hq
    · exact ⟨[n], by simp [hq], .here (by simp)⟩
    · obtain ⟨p, hp, hrch⟩ := ih r hr q hq
      exact ⟨p, hp, reachableFile_cons _ hrch⟩
  | case4 pre n sub rest hx ih =>
    simp only [scanEntries] at hok
    rw [if_pos hx] at hok
    intro q hq
    obtain ⟨p, hp, hrch⟩ := ih files hok q hq
    exact ⟨p, hp, reachableFile_cons _ hrch⟩
  | case5 pre n sub rest hx e herr _ =>
    simp only [scanEntries] at hok
    rw [if_neg hx, herr] at hok
    simp at hok
  | case6 pre n sub rest hx s hs e herr _ _ =>
    simp only [scanEntries] at hok
    rw [if_neg hx, hs, herr] at hok
    simp at hok
  | case7 pre n sub rest hx s hs r hr ihsub ihrest =>
    simp only [scanEntries] at hok
    rw [if_neg hx, hs, hr] at hok
    simp only [Except.ok.injEq] at hok
    subst hok
    intro q hq
    rcases List.mem_append.mp hq with hq | hq
    · obtain ⟨p, hp, hrch⟩ := ihsub s hs q hq
      refine ⟨n :: p, by simp [hp], ?_⟩
      exact .there (by simp) (by simpa using hx) hrch
    · obtain ⟨p, hp, hrch⟩ := ihrest r hr q hq
      exact ⟨p, hp, reachableFile_cons _ hrch⟩
  | case8 pre n rest hx ih =>
    simp only [scanEntries] at hok
    rw [if_pos hx] at hok
    intro q hq
    obtain ⟨p, hp, hrch⟩ := ih files hok q hq
    exact ⟨p, hp, reachableFile_cons _ hrch⟩
  | case9 pre n rest hx =>
    simp only [scanEntries] at hok
    rw [if_neg hx] at hok
    cases hok

/-- Witness for `scan_records_only_reachable_files` at a small tree. -/
theorem scan_records_only_reachable_files_witness :
    scanEntries ["r"] [FsNode.file "a.rs", FsNode.dir "s" [FsNode.file "b.rs"]]
        = .ok [["r", "a.rs"], ["r", "s", "b.rs"]]
    ∧ ∃ p, (["r", "a.rs"] : RPath) = ["r"] ++ p
        ∧ ReachableFile [FsNode.file "a.rs", FsNode.dir "s" [FsNode.file "b.rs"]] p := by
  have hok : scanEntries ["r"] [FsNode.file "a.rs", FsNode.dir "s" [FsNode.file "b.rs"]]
      = .ok [["r", "a.rs"], ["r", "s", "b.rs"]] := by
    simp +decide [scanEntries]
  exact ⟨hok,
    scan_records_only_reachable_files ["r"] _ _ hok ["r", "a.rs"] (by simp)⟩

theorem scanEntries_error_cons (pre : RPath) (e : FsNode) (rest : List FsNode)
    (h : scanEntries pre rest = .error ()) :
    scanEntries pre (e :: rest) = .error () := by
  cases e with
  | file n =>
    simp only [scanEntries]
    rw [h]
  | dir n sub =>
    by_cases hx : excludedDir n
    · simp only [scanEntries]
      rw [if_pos hx, h]
    · simp only [scanEntries]
      rw [if_neg hx]
      cases h1 : scanEntries (pre ++ [n]) sub with
      | error e => rfl
      | ok s => rw [h]
  | badDir n =>
    by_cases hx : excludedDir n
    · simp only [scanEntries]
      rw [if_pos hx, h]
    · simp only [scanEntries]
      rw [if_neg hx]

theorem scanEntries_error_of_hasReadError {entries : List FsNode}
    (h : HasReadError entries) (pre : RPath) :
    scanEntries pre entries = .error () := by
  induction h generalizing pre with
  | bad hmem hexcl =>
    induction hmem with
    | head rest =>
      simp only [scanEntries]
      rw [if_neg (by simp [hexcl])]
    | tail e hm ih => exact scanEntries_error_cons pre e _ ih
  | deeper hmem hexcl hsub ihsub =>
    induction hmem with
    | head rest =>
      simp only [scanEntries]
      rw [if_neg (by simp [hexcl])]
      simp [ihsub]
    | tail e hm ih => exact scanEntries_error_cons pre e _ ih

/-- Claim C9: if any directory listing below the scanned root fails
(`HasReadError`), the recursive walk returns an error for the whole call,
and `FolderScan::new` on such a root returns an error — no partial
`FolderScan` is produced. -/
theorem read_error_aborts_scan :
    (∀ (entries : List FsNode), HasReadError entries →
        ∀ (pre : RPath), scanEntries pre entries = .error ())
    ∧ (∀ (rootName nm : String) (sub : List FsNode), HasReadError sub →
        folderScanNew rootName (.dir nm sub) = .error ()) := by
  refine ⟨fun entries h pre => scanEntries_error_of_hasReadError h pre, ?_⟩
  intro rootName nm sub h
  rw [folderScanNew, scanEntries_error_of_hasReadError h]

/-- Witness for `read_error_aborts_scan` at a root with one unreadable
subdirectory. -/
theorem read_error_aborts_scan_witness :
    HasReadError [FsNode.badDir "x"]
    ∧ folderScanNew "r" (.dir "r" [FsNode.badDir "x"]) = .error () :=
  have hre : HasReadError [FsNode.badDir "x"] :=
    @HasReadError.bad [FsNode.badDir "x"] "x" (by simp) (by decide)
  ⟨hre, read_error_aborts_scan.2 "r" "r" _ hre⟩

/-! ## Query matcher theorems -/

theorem intScan_total (cs : List Char) (blen : Nat) (hb : blen ≤ cs.length) :
    ∀ chId, ∃ m, intScan cs blen chId = some m := by
  intro chId0
  induction chId0 using intScan.induct cs blen with
  | case1 x hx hnone =>
    have := List.get?_eq_none.mp hnone
    omega
  | case2 x hx c hc hdig ih =>
    obtain ⟨m, hm⟩ := ih
    refine ⟨m, ?_⟩
    rw [intScan, dif_pos hx, hc]
    simpa [hdig] using hm
  | case3 x hx c hc hdig =>
    refine ⟨x, ?_⟩
    rw [intScan, dif_pos hx, hc]
    simp [hdig]
  | case4 x hx => exact ⟨x, by rw [intScan, dif_neg hx]⟩

theorem fixedScan_total (s cs : List Char) (blen : Nat) (hb : blen ≤ cs.length) :
    ∀ sId chId, ∃ m, fixedScan s cs blen sId chId = some m := by
  intro sId0 chId0
  induction sId0, chId0 using fixedScan.induct s cs blen with
  | case1 sId chId hcond sc ec hec hsc heq ih =>
    obtain ⟨m, hm⟩ := ih
    refine ⟨m, ?_⟩
    rw [fixedScan, dif_pos hcond, hsc, hec]
    simpa [heq] using hm
  | case2 sId chId hcond sc ec hec hsc hne =>
    refine ⟨.failure, ?_⟩
    rw [fixedScan, dif_pos hcond, hsc, hec]
    simp [hne]
  | case3 sId chId hcond himp =>
    exfalso
    cases hs : s.get? sId with
    | none => have := List.get?_eq_none.mp hs; omega
    | some sc =>
      cases hc : cs.get? chId with
      | none => have := List.get?_eq_none.mp hc; omega
      | some ec => exact himp sc ec hs hc
  | case4 sId chId hcond hlt =>
    exact ⟨.failure, by rw [fixedScan, dif_neg hcond]; simp [hlt]⟩
  | case5 sId chId hcond hlt =>
    exact ⟨.success chId, by rw [fixedScan, dif_neg hcond]; simp [hlt]⟩

theorem matchPart_total :
    ∀ (p : Part) (it : List Part) (cs : List Char) (blen chId : Nat),
      blen ≤ cs.length → ∃ r, matchPart p it cs blen chId = some r := by
  refine matchPart.induct _
    (fun next it cs blen chId =>
      blen ≤ cs.length → ∃ r, anyStrLoop next it cs blen chId = some r)
    ?_ ?_ ?_ ?_ ?_ ?_ ?_ ?_ ?_ ?_ ?_ ?_ ?_ ?_ ?_ ?_
  · intro it cs blen chId _
    exact ⟨(.success (chId + 1), ⟨it, Nat.le_refl _⟩), by simp [matchPart]⟩
  · intro it cs blen chId h _
    exact ⟨(.failure, ⟨it, Nat.le_refl _⟩), by simp [matchPart, if_pos h]⟩
  · intro it cs blen chId h _
    exact ⟨(.success (chId + 1), ⟨it, Nat.le_refl _⟩), by simp [matchPart, if_neg h]⟩
  · intro cs blen chId _
    exact ⟨(.success blen, ⟨[], Nat.le_refl _⟩), by simp [matchPart]⟩
  · intro cs blen chId next rest hloop ih hb
    obtain ⟨r, hr⟩ := ih hb
    rw [hr] at hloop
    cases hloop
  · intro cs blen chId next rest m l hl hloop _ _
    refine ⟨(m, ⟨l, Nat.le_trans hl (Nat.le_succ _)⟩), ?_⟩
    simp only [matchPart]
    rw [hloop]
  · intro it cs blen chId hnone hb
    obtain ⟨m, hm⟩ := intScan_total cs blen hb chId
    rw [hm] at hnone
    cases hnone
  · intro it cs blen endId hscan _
    refine ⟨(.failure, ⟨it, Nat.le_refl _⟩), ?_⟩
    simp only [matchPart]
    rw [hscan]
    simp
  · intro it cs blen chId endId hscan hne _
    refine ⟨(.success endId, ⟨it, Nat.le_refl _⟩), ?_⟩
    simp only [matchPart]
    rw [hscan]
    simp [hne]
  · intro it cs blen chId a hnone hb
    obtain ⟨m, hm⟩ := fixedScan_total a cs blen hb 0 chId
    rw [hm] at hnone
    cases hnone
  · intro it cs blen chId a m hscan _
    refine ⟨(m, ⟨it, Nat.le_refl _⟩), ?_⟩
    simp only [matchPart]
    rw [hscan]
  · intro next it cs blen chId h hnone ih hb
    obtain ⟨r, hr⟩ := ih hb
    rw [hr] at hnone
    cases hnone
  · intro next it cs blen chId h n l hmp _ _
    refine ⟨(.success n, l), ?_⟩
    rw [anyStrLoop, dif_pos h, hmp]
  · intro next it cs blen chId h l hl hmp hloop _ ih2 hb
    obtain ⟨r, hr⟩ := ih2 hb
    rw [hr] at hloop
    cases hloop
  · intro next it cs blen chId h l hl hmp m l1 hl1 hloop _ _ _
    refine ⟨(m, ⟨l1, Nat.le_trans hl1 hl⟩), ?_⟩
    rw [anyStrLoop, dif_pos h, hmp]
    simp [hloop]
  · intro next it cs blen chId h _
    exact ⟨(.failure, ⟨it, Nat.le_refl _⟩), by rw [anyStrLoop, dif_neg h]⟩

theorem matchesLoop_total :
    ∀ (it : List Part) (cs : List Char) (blen chId : Nat) (lastM : PartMatch),
      blen ≤ cs.length → ∃ r, matchesLoop it cs blen chId lastM = some r := by
  intro it cs blen chId lastM
  induction it, cs, blen, chId, lastM using matchesLoop.induct with
  | case1 cs blen chId lastM =>
    intro _
    exact ⟨(chId, lastM, []), by simp [matchesLoop]⟩
  | case2 cs blen chId lastM next rest hnone =>
    intro hb
    obtain ⟨r, hr⟩ := matchPart_total next rest cs blen chId hb
    rw [hr] at hnone
    cases hnone
  | case3 cs blen chId lastM next rest n l hl hmp ih =>
    intro hb
    obtain ⟨r, hr⟩ := ih hb
    refine ⟨r, ?_⟩
    simp only [matchesLoop]
    rw [hmp]
    exact hr
  | case4 cs blen chId lastM next rest l hl hmp =>
    intro _
    refine ⟨(chId, .failure, l), ?_⟩
    simp only [matchesLoop]
    rw [hmp]

theorem utf8Size_ascii (c : Char) (h : c.toNat ≤ 127) : c.utf8Size = 1 := by
  have hv : c.val ≤ 0x7F := by
    rw [UInt32.le_def]
    exact h
  simp [Char.utf8Size, hv]

theorem byteLen_ascii (cs : List Char) (h : ∀ c ∈ cs, c.toNat ≤ 127) :
    byteLen cs = cs.length := by
  induction cs with
  | nil => rfl
  | cons c rest ih =>
    have hc := utf8Size_ascii c (h c (by simp))
    have hr := ih fun d hd => h d (by simp [hd])
    simp [byteLen] at hr ⊢
    omega

/-- Claim C10: for an ASCII candidate string, `Query::matches` — whose cursor
is bounded by the byte length `byteLen cs` while characters are fetched by
character index — returns a boolean without panicking (`some b`, never the
`none` that models an out-of-range `.unwrap()`), for every parsed query. -/
theorem matches_total_on_ascii (q : Query) (cs : List Char)
    (hascii : ∀ c ∈ cs, c.toNat ≤ 127) :
    ∃ b, q.matches cs (byteLen cs) = some b := by
  have hb : byteLen cs = cs.length := byteLen_ascii cs hascii
  obtain ⟨⟨n, lastM, rem⟩, hr⟩ :=
    matchesLoop_total q.parts cs (byteLen cs) 0 .failure (by rw [hb])
  refine ⟨rem.isEmpty && decide (byteLen cs ≤ n) && lastM.isSuccess, ?_⟩
  simp only [Query.matches]
  rw [hr]

theorem anyStrLoop_all_failure (next : Part) (rest : List Part) (cs : List Char)
    (blen : Nat) :
    ∀ chId,
      (∀ k, chId ≤ k → k < blen →
        matchPart next rest cs blen k
          = some (.failure, ⟨rest, Nat.le_refl rest.length⟩)) →
      anyStrLoop next rest cs blen chId
        = some (.failure, ⟨rest, Nat.le_refl rest.length⟩) := by
  have main : ∀ d chId, blen - chId = d →
      (∀ k, chId ≤ k → k < blen →
        matchPart next rest cs blen k
          = some (.failure, ⟨rest, Nat.le_refl rest.length⟩)) →
      anyStrLoop next rest cs blen chId
        = some (.failure, ⟨rest, Nat.le_refl rest.length⟩) := by
    intro d
    induction d with
    | zero =>
      intro chId hd _
      rw [anyStrLoop, dif_neg (by omega)]
    | succ d ih =>
      intro chId hd hk
      have hlt : chId < blen := by omega
      rw [anyStrLoop, dif_pos hlt, hk chId (Nat.le_refl _) hlt]
      have hrec := ih (chId + 1) (by omega) (fun k h1 h2 => hk k (by omega) h2)
      simp [hrec]
  exact fun chId hk => main (blen - chId) chId rfl hk

theorem anyStrLoop_first_success (next : Part) (rest : List Part) (cs : List Char)
    (blen j n : Nat) (hjb : j < blen)
    (hsucc : matchPart next rest cs blen j
      = some (.success n, ⟨rest, Nat.le_refl rest.length⟩)) :
    ∀ chId, chId ≤ j →
      (∀ k, chId ≤ k → k < j →
        matchPart next rest cs blen k
          = some (.failure, ⟨rest, Nat.le_refl rest.length⟩)) →
      anyStrLoop next rest cs blen chId
        = some (.success n, ⟨rest, Nat.le_refl rest.length⟩) := by
  have main : ∀ d chId, j - chId = d → chId ≤ j →
      (∀ k, chId ≤ k → k < j →
        matchPart next rest cs blen k
          = some (.failure, ⟨rest, Nat.le_refl rest.length⟩)) →
      anyStrLoop next rest cs blen chId
        = some (.success n, ⟨rest, Nat.le_refl rest.length⟩) := by
    intro d
    induction d with
    | zero =>
      intro chId hd hle _
      have : chId = j := by omega
      subst this
      rw [anyStrLoop, dif_pos hjb, hsucc]
    | succ d ih =>
      intro chId hd hle hk
      have hcj : chId < j := by omega
      have hcb : chId < blen := by omega
      rw [anyStrLoop, dif_pos hcb, hk chId (Nat.le_refl _) hcj]
      have hrec := ih (chId + 1) (by omega) (by omega)
        (fun k h1 h2 => hk k (by omega) h2)
      simp [hrec]
  exact fun chId hle hk => main (j - chId) chId rfl hle hk

/-- Claim C1 counterexample: the code's `AnyStr` is *not* "take the smallest
end-offset at which the entire remaining token sequence matches the rest":
for the query `*a` on candidate `aa`, the remaining sequence `[Fixed "a"]`
does match the rest exactly at end-offset 1 (second and third conjuncts, in
the spec-side semantics `specSeq`), yet `Query::matches` returns `false`
(first conjunct), because `match_part` commits to offset 0 — the first
offset where the single next token matches — and then runs out of tokens
with one character left. -/
theorem anyStr_not_full_sequence_lazy_cex :
    (Query.parse ['*', 'a']).map (fun q => q.matches ['a', 'a'] 2) = .ok (some false)
    ∧ specSeq [.anyStr, .fixed ['a']] ['a', 'a'] 0 = true
    ∧ specSeq [.fixed ['a']] ['a', 'a'] 1 = true := by
  refine ⟨?_, by decide, by decide⟩
  simp [Query.parse, trimChars, parseStep, Except.map, Query.matches, matchesLoop,
    matchPart, anyStrLoop, fixedScan]

/-- Claim C1 (amended): when no token follows, `AnyStr` unconditionally
consumes the remainder of the input (first conjunct).  When a token follows,
`match_part` scans increasing end-offsets strictly below the input length and
commits to the *first* offset at which that single following token matches,
returning the following token's resulting cursor (second conjunct); if the
following token fails at every such offset, the `AnyStr` fails (third
conjunct).  The rest of the token sequence is then required to match from the
committed cursor, with no backtracking.  (The hypotheses state the following
token's results with the iterator unchanged, which holds for every token
other than a nested `AnyStr`.) -/
theorem anyStr_commits_to_first_next_token_match
    (next : Part) (rest : List Part) (cs : List Char) (blen chId : Nat) :
    (matchPart .anyStr [] cs blen chId
        = some (.success blen, ⟨[], Nat.le_refl 0⟩))
    ∧ (∀ j n, chId ≤ j → j < blen →
        matchPart next rest cs blen j
            = some (.success n, ⟨rest, Nat.le_refl rest.length⟩) →
        (∀ k, chId ≤ k → k < j →
          matchPart next rest cs blen k
              = some (.failure, ⟨rest, Nat.le_refl rest.length⟩)) →
        matchPart .anyStr (next :: rest) cs blen chId
            = some (.success n, ⟨rest, Nat.le_succ rest.length⟩))
    ∧ ((∀ k, chId ≤ k → k < blen →
          matchPart next rest cs blen k
              = some (.failure, ⟨rest, Nat.le_refl rest.length⟩)) →
        matchPart .anyStr (next :: rest) cs blen chId
            = some (.failure, ⟨rest, Nat.le_succ rest.length⟩)) := by
  refine ⟨by simp [matchPart], ?_, ?_⟩
  · intro j n hj hjb hsucc hfail
    have hloop := anyStrLoop_first_success next rest cs blen j n hjb hsucc chId hj hfail
    simp only [matchPart]
    rw [hloop]
  · intro hfail
    have hloop := anyStrLoop_all_failure next rest cs blen chId hfail
    simp only [matchPart]
    rw [hloop]

/-- Witness for `anyStr_commits_to_first_next_token_match`: the query `*b`
on candidate `ab` commits to offset 1, where `Fixed "b"` first matches. -/
theorem anyStr_commits_to_first_next_token_match_witness :
    ((0 ≤ 1 ∧ 1 < 2)
      ∧ matchPart (.fixed ['b']) [] ['a', 'b'] 2 1
          = some (.success 2, ⟨[], Nat.le_refl 0⟩)
      ∧ (∀ k, 0 ≤ k → k < 1 →
          matchPart (.fixed ['b']) [] ['a', 'b'] 2 k
            = some (.failure, ⟨[], Nat.le_refl 0⟩)))
    ∧ matchPart .anyStr [.fixed ['b']] ['a', 'b'] 2 0
        = some (.success 2, ⟨[], Nat.le_succ 0⟩) := by
  have hsucc : matchPart (.fixed ['b']) [] ['a', 'b'] 2 1
      = some (.success 2, ⟨[], Nat.le_refl 0⟩) := by
    simp [matchPart, fixedScan]
  have hfail : ∀ k, 0 ≤ k → k < 1 →
      matchPart (.fixed ['b']) [] ['a', 'b'] 2 k
        = some (.failure, ⟨[], Nat.le_refl 0⟩) := by
    intro k _ hk
    interval_cases k
    simp [matchPart, fixedScan]
  exact ⟨⟨⟨Nat.zero_le 1, by omega⟩, hsucc, hfail⟩,
    (anyStr_commits_to_first_next_token_match (.fixed ['b']) [] ['a', 'b'] 2 0).2.1
      1 2 (Nat.zero_le 1) (by omega) hsucc hfail⟩

theorem matchesLoop_success_cursor :
    ∀ (it : List Part) (cs : List Char) (blen chId : Nat) (lastM : PartMatch)
      (res : Nat × PartMatch × List Part),
      matchesLoop it cs blen chId lastM = some res →
      lastM = .failure ∨ lastM = .success chId →
      res.2.1 = .failure ∨ res.2.1 = .success res.1 := by
  intro it cs blen chId lastM
  induction it, cs, blen, chId, lastM using matchesLoop.induct with
  | case1 cs blen chId lastM =>
    intro res hres hinv
    simp only [matchesLoop] at hres
    cases hres
    simpa using hinv
  | case2 cs blen chId lastM next rest hnone =>
    intro res hres _
    simp only [matchesLoop] at hres
    rw [hnone] at hres
    cases hres
  | case3 cs blen chId lastM next rest n l hl hmp ih =>
    intro res hres _
    simp only [matchesLoop] at hres
    rw [hmp] at hres
    exact ih res hres (Or.inr rfl)
  | case4 cs blen chId lastM next rest l hl hmp =>
    intro res hres _
    simp only [matchesLoop] at hres
    rw [hmp] at hres
    cases hres
    simp

/-- Claim C7: `Query::matches` succeeds exactly when the token loop ran to
iterator exhaustion with every token matched in order (final state
`(n, Success n, [])`) *and* the cursor consumed the input through its end
(`cs.length ≤ n`; the cursor can pass the end only by `OptionalChar`'s
unconditional increment, never stopping short of it).  In particular a query
with no trailing wildcard never matches a strictly longer candidate:
`Query("test").matches("test2")` is `false` (second conjunct). -/
theorem matches_requires_full_consumption :
    (∀ (q : Query) (cs : List Char),
        q.matches cs cs.length = some true ↔
          ∃ n, matchesLoop q.parts cs cs.length 0 .failure = some (n, .success n, [])
            ∧ cs.length ≤ n)
    ∧ (Query.parse ['t', 'e', 's', 't']).map
        (fun q => q.matches ['t', 'e', 's', 't', '2'] 5) = .ok (some false) := by
  constructor
  · intro q cs
    constructor
    · intro h
      simp only [Query.matches] at h
      cases hres : matchesLoop q.parts cs cs.length 0 .failure with
      | none => rw [hres] at h; cases h
      | some res =>
        obtain ⟨n', lastM, rem⟩ := res
        rw [hres] at h
        have hb : (rem.isEmpty && decide (cs.length ≤ n') && lastM.isSuccess) = true :=
          Option.some.inj h
        simp only [Bool.and_eq_true, decide_eq_true_eq, List.isEmpty_iff] at hb
        obtain ⟨⟨hrem, hle⟩, hsucc⟩ := hb
        have hinv := matchesLoop_success_cursor q.parts cs cs.length 0 .failure
          (n', lastM, rem) hres (Or.inl rfl)
        cases hinv with
        | inl hf =>
          have hf' : lastM = .failure := hf
          rw [hf'] at hsucc
          simp [PartMatch.isSuccess] at hsucc
        | inr hs =>
          have hs' : lastM = .success n' := hs
          subst hs'
          subst hrem
          exact ⟨n', rfl, hle⟩
    · rintro ⟨n, hloop, hle⟩
      simp only [Query.matches]
      rw [hloop]
      simp [PartMatch.isSuccess, hle]
  · simp [Query.parse, trimChars, parseStep, Except.map, Query.matches, matchesLoop,
      matchPart, fixedScan]

/-- Witness for `matches_requires_full_consumption`: the characterization
applied to the query `ab` on candidate `ab`. -/
theorem matches_requires_full_consumption_witness :
    (Query.mk ['a', 'b'] [.fixed ['a', 'b']]).matches ['a', 'b'] 2 = some true := by
  refine (matches_requires_full_consumption.1 ⟨['a', 'b'], [.fixed ['a', 'b']]⟩
    ['a', 'b']).mpr ⟨2, ?_, by decide⟩
  simp [matchesLoop, matchPart, fixedScan]

/-- Witness for `matches_total_on_ascii` at a concrete ASCII query and
candidate. -/
theorem matches_total_on_ascii_witness :
    (∀ c ∈ ['a', 'b'], c.toNat ≤ 127)
    ∧ ∃ b, (Query.mk ['a'] [.fixed ['a']]).matches ['a', 'b'] (byteLen ['a', 'b'])
        = some b :=
  ⟨by decide, matches_total_on_ascii ⟨['a'], [.fixed ['a']]⟩ ['a', 'b'] (by decide)⟩

end PGrep
